import Mathlib

/-!
Shallow embedding of the slop-score text-analytics engine
(src/skills/slop-score/scripts/slop-score: lib/utils.ts, lib/wordfreq.ts,
lib/contrast-detector.ts and metrics.ts), together with theorems settling
the specification's claims about it.

Modelling conventions:
* JS numbers are rationals (ℚ); the floating-point grid is not modelled,
  all the claim-relevant arithmetic here is exact.
* JS strings are Lean `String` / `List Char`; `toLocaleLowerCase` is
  modelled by the character-wise `Char.toLower` (adequate for the
  ASCII-centric processing the code performs).
* JS `Map` is an insertion-ordered association list with overwrite-on-set
  semantics (`mapSet` / `mapGet`), matching `Map.set` / `Map.get`.
* JS `Set` of strings is a `List String` queried with `contains`.
* `null`/`undefined` function inputs are `Option`-typed.
* Regex scans over fixed character classes are implemented as equivalent
  total scanners; the behaviour of each regex on its input language was
  derived by hand from the pattern and is documented at each definition.
-/

namespace SlopScore

/-- Characters matched by the JS character class `[.!?]` used both by
`sentenceSpans` (utils.ts) and by the sentence split in metrics.ts. -/
def isTermChar (c : Char) : Bool := c = '.' || c = '!' || c = '?'

/-- Lowercase ASCII letter, the class `[a-z]`. -/
def isLowerAlpha (c : Char) : Bool := 'a' ≤ c && c ≤ 'z'

/-- The class `[A-Za-z0-9]` of wordfreq.ts's WORD_RE. -/
def isAlnum (c : Char) : Bool :=
  ('A' ≤ c && c ≤ 'Z') || ('a' ≤ c && c ≤ 'z') || ('0' ≤ c && c ≤ '9')

/-- The class `\w` = `[A-Za-z0-9_]` used by the `\b\w+\b` word regex in
metrics.ts. -/
def isWordChar (c : Char) : Bool := isAlnum c || c = '_'

/-- JS regex `\s` whitespace (the subset relevant to the texts processed:
ASCII whitespace plus no-break space, line/paragraph separator and BOM). -/
def isJsWs (c : Char) : Bool :=
  c = ' ' || c = '\t' || c = '\n' || c = '\r' || c = '\x0b' || c = '\x0c' ||
  c = ' ' || c = ' ' || c = ' ' || c = '﻿'

/-- JS `String.prototype.trim` on a character list. -/
def trimWs (cs : List Char) : List Char :=
  ((cs.dropWhile isJsWs).reverse.dropWhile isJsWs).reverse

/-- True when a segment survives the `s.trim().length > 0` filters of
metrics.ts. -/
def nonBlank (cs : List Char) : Bool := cs.any (fun c => !(isJsWs c))

/-- Maximal runs of characters satisfying `p`: the global matches of a
regex `[class]+` over the input, collected by a one-pass scanner
(`cur` is the reversed run being built). -/
def extractRunsAux (p : Char → Bool) (cur : List Char) : List Char → List (List Char)
  | [] => if cur.isEmpty then [] else [cur.reverse]
  | c :: cs =>
    if p c then extractRunsAux p (c :: cur) cs
    else (if cur.isEmpty then [] else [cur.reverse]) ++ extractRunsAux p [] cs

def extractRuns (p : Char → Bool) (cs : List Char) : List (List Char) :=
  extractRunsAux p [] cs

/-- JS `String.prototype.split` on a regex `[class]+`: segments between
maximal runs of class characters, keeping empty segments at the borders
(so `"".split` gives `[""]` and `"a.".split` gives `["a", ""]`).
`inSep` records that the previous character belonged to the current
separator run. -/
def jsSplitAux (p : Char → Bool) : Bool → List Char → List Char → List (List Char)
  | _, acc, [] => [acc.reverse]
  | inSep, acc, c :: cs =>
    if p c then
      if inSep then jsSplitAux p true acc cs
      else acc.reverse :: jsSplitAux p true [] cs
    else jsSplitAux p false (c :: acc) cs

def jsSplit (p : Char → Bool) (cs : List Char) : List (List Char) :=
  jsSplitAux p false [] cs

/-- Index of the last '\n' in a list, if any. -/
def lastNlIdx (w : List Char) : Option ℕ :=
  match w.reverse.findIdx? (fun c => c = '\n') with
  | some k => some (w.length - 1 - k)
  | none => none

/-- JS `String.prototype.split` on the regex `/\n\s*\n/` used by
`computeAverageParagraphLength`.  A match at a '\n' consumes, by greedy
backtracking, the whitespace up to (and including) the last '\n' inside
the maximal whitespace run that follows; if that run holds no further
'\n' there is no match at this position. -/
def paraSplitAux (acc : List Char) : List Char → List (List Char)
  | [] => [acc.reverse]
  | c :: cs =>
    if c = '\n' then
      match lastNlIdx (cs.takeWhile isJsWs) with
      | some j => acc.reverse :: paraSplitAux [] (cs.drop (j + 1))
      | none => paraSplitAux (c :: acc) cs
    else paraSplitAux (c :: acc) cs
termination_by l => l.length
decreasing_by
  all_goals simp_all
  have : (cs.drop (j + 1)).length ≤ cs.length := by
    simp [List.length_drop]
  omega

def paraSplit (cs : List Char) : List (List Char) := paraSplitAux [] cs

/-! JS `Map` as an insertion-ordered association list. -/

/-- JS `Map.prototype.get` (as an `Option`). -/
def mapGet {α : Type} : List (String × α) → String → Option α
  | [], _ => none
  | (k, v) :: m, key => if k = key then some v else mapGet m key

/-- JS `Map.prototype.set`: overwrite in place, else append. -/
def mapSet {α : Type} : List (String × α) → String → α → List (String × α)
  | [], key, val => [(key, val)]
  | (k, v) :: m, key, val =>
    if k = key then (k, val) :: m else (k, v) :: mapSet m key val

/-- The keys of a JS map. -/
def mapKeys {α : Type} (m : List (String × α)) : List String := m.map Prod.fst

/-- Sum of the values of a JS map of rationals. -/
def sumValues (m : List (String × ℚ)) : ℚ := (m.map Prod.snd).sum

/-! utils.ts -/

/-- Character-wise form of utils.ts `normalizeQuotes`: the single-quote
class `[‘’‚‛′ʼ＇` + backtick `]` maps to
an ASCII apostrophe, the double-quote class
`[“”„‟″«»＂]` to an ASCII double
quote. -/
def charNormalizeQuotes (c : Char) : Char :=
  if c = '‘' || c = '’' || c = '‚' || c = '‛' ||
     c = '′' || c = 'ʼ' || c = '＇' || c = '\u0060' then '\''
  else if c = '“' || c = '”' || c = '„' || c = '‟' ||
          c = '″' || c = '«' || c = '»' || c = '＂' then '"'
  else c

def normalizeQuotes (cs : List Char) : List Char := cs.map charNormalizeQuotes

/-- Character-wise form of utils.ts `normalizeText`: curly double and
single quotes to their ASCII forms, em/en dashes to '-'.  All
substitutions are 1:1, so offsets are preserved. -/
def charNormalizeText (c : Char) : Char :=
  if c = '“' || c = '”' then '"'
  else if c = '‘' || c = '’' then '\''
  else if c = '—' || c = '–' then '-'
  else c

def normalizeText (cs : List Char) : List Char := cs.map charNormalizeText

/-- utils.ts `wordsOnlyLower`: lowercase, normalize quotes, take the
global matches of `[a-z']+`, strip leading/trailing apostrophes, drop
empties. -/
def wordsOnlyLower (s : List Char) : List String :=
  let txt := normalizeQuotes (s.map Char.toLower)
  let toks := extractRuns (fun c => isLowerAlpha c || c = '\'') txt
  ((toks.map fun t =>
      ((t.dropWhile (· = '\'')).reverse.dropWhile (· = '\'')).reverse).filter
    (· ≠ [])).map (fun t => String.mk t)

/-- Decides the regex `^[a-z]+(?:'[a-z]+)?$` of utils.ts `alphaTokens`
and metrics.ts `contentTokens`. -/
def isAlphaTok (s : String) : Bool :=
  let cs := s.data
  let a := cs.takeWhile isLowerAlpha
  let r := cs.dropWhile isLowerAlpha
  decide (a ≠ []) &&
    (match r with
     | [] => true
     | '\'' :: b => decide (b ≠ []) && b.all isLowerAlpha
     | _ => false)

/-- utils.ts `alphaTokens`. -/
def alphaTokens (tokens : List String) : List String := tokens.filter isAlphaTok

/-- Scanner equivalent of utils.ts `sentenceSpans`: its regex
`/[^.!?]*[.!?]/gs` yields, starting at each scan position, the run of
non-terminator characters up to and including the next terminator; the
successive matches are therefore contiguous from offset 0, and any
trailing unterminated text becomes a final span.  `start` is the offset
where the current sentence began, `pos` the current scan offset
(invariantly `start ≤ pos`). -/
def spansAux : List Char → ℕ → ℕ → List (ℕ × ℕ)
  | [], start, pos => if start < pos then [(start, pos)] else []
  | c :: cs, start, pos =>
    if isTermChar c then (start, pos + 1) :: spansAux cs (pos + 1) (pos + 1)
    else spansAux cs start (pos + 1)

/-- utils.ts `sentenceSpans`. -/
def sentenceSpans (text : List Char) : List (ℕ × ℕ) := spansAux text 0 0

/-- utils.ts `countItems` (values as JS numbers). -/
def countItems (l : List String) : List (String × ℚ) :=
  l.foldl (fun m x => mapSet m x ((mapGet m x).getD 0 + 1)) []

/-- utils.ts `getNgrams`: space-joined windows of `n` consecutive
tokens (no windows at all when fewer than `n` tokens). -/
def getNgrams (words : List String) (n : ℕ) : List String :=
  if words.length < n then []
  else
    (List.range (words.length - n + 1)).map
      (fun i => String.intercalate " " ((words.drop i).take n))

/-! wordfreq.ts -/

/-- Character-wise `uncurlQuotes` of wordfreq.ts (curly to straight). -/
def charUncurl (c : Char) : Char :=
  if c = '‘' || c = '’' then '\''
  else if c = '“' || c = '”' then '"'
  else c

/-- wordfreq.ts `normalizeWord_en`: uncurl quotes, lowercase, trim. -/
def normalizeWord (s : List Char) : List Char :=
  trimWs ((s.map charUncurl).map Char.toLower)

/-- Scanner for wordfreq.ts WORD_RE `[A-Za-z0-9]+(?:['-][A-Za-z0-9]+)*`
(global matches): alphanumeric runs that may continue through a single
apostrophe or hyphen only when an alphanumeric character follows.
`cur` is the reversed current token. -/
def wfTokensAux : List Char → List Char → List String
  | cur, [] => if cur.isEmpty then [] else [String.mk cur.reverse]
  | cur, c :: cs =>
    if isAlnum c then wfTokensAux (c :: cur) cs
    else if (c = '\'' || c = '-') && !cur.isEmpty &&
            (match cs with | d :: _ => isAlnum d | [] => false) then
      wfTokensAux (c :: cur) cs
    else
      (if cur.isEmpty then [] else [String.mk cur.reverse]) ++ wfTokensAux [] cs

def wfTokens (cs : List Char) : List String := wfTokensAux [] cs

/-- wordfreq.ts `combineZipfSimple`: fold `Math.min` starting from
`Infinity` (modelled as `none`), with the final `isFinite` fallback to
0 (reached exactly when there are no tokens). -/
def combineZipfSimple (tokens : List String) (getZipf : String → ℚ) : ℚ :=
  match tokens.foldl
      (fun acc t =>
        some (match acc with
              | none => getZipf t
              | some z => min z (getZipf t)))
      (none : Option ℚ) with
  | none => 0
  | some z => z

/-- wordfreq.ts class `WordfreqEn`: the word→Zipf map and the default
for out-of-vocabulary lookups. -/
structure WordfreqEn where
  map : List (String × ℚ)
  minZipf : ℚ

/-- wordfreq.ts `WordfreqEn.zipfFrequency`.  A `none` input models a
JS `null`/`undefined` argument; note the code returns the literal `0.0`
(not `minZipf`) on the `!input` guard, which also catches `""`. -/
def zipfFrequency (wf : WordfreqEn) (input : Option String) : ℚ :=
  match input with
  | none => 0
  | some s =>
    if s = "" then 0
    else
      let text := normalizeWord s.data
      let tokens := wfTokens text
      if tokens.length > 1 then
        combineZipfSimple tokens (fun w => (mapGet wf.map w).getD wf.minZipf)
      else (mapGet wf.map (String.mk text)).getD wf.minZipf

/-- The bucket loop of wordfreq.ts `loadWordfreq` (lines 109-119): bucket
`i` carries `zipf = (cB + 900) / 100` with `cB = -i`, and every word of a
non-empty bucket is written into the map with `Map.set`.  `bins` is the
decoded cBpack array after the header (a JS `null` entry is modelled as
an empty bucket; both are skipped by the `Array.isArray && length > 0`
guard without touching the map). -/
def buildWordfreqAux : List (List String) → ℕ → List (String × ℚ) → List (String × ℚ)
  | [], _, m => m
  | ws :: rest, i, m =>
    let m' := if ws.length > 0 then
        ws.foldl (fun acc w => mapSet acc w ((-(i : ℚ) + 900) / 100)) m
      else m
    buildWordfreqAux rest (i + 1) m'

def buildWordfreqMap (bins : List (List String)) : List (String × ℚ) :=
  buildWordfreqAux bins 0 []

/-! contrast-detector.ts -/

/-- contrast-detector.ts `bisectRight` binary-search loop (`mid` is
`(lo + hi) / 2`, written inline). -/
def bisectRightAux (arr : List ℕ) (val : ℕ) (lo hi : ℕ) : ℕ :=
  if lo < hi then
    if arr.getD ((lo + hi) / 2) 0 ≤ val then bisectRightAux arr val ((lo + hi) / 2 + 1) hi
    else bisectRightAux arr val lo ((lo + hi) / 2)
  else lo
termination_by hi - lo
decreasing_by all_goals omega

def bisectRight (arr : List ℕ) (val : ℕ) : ℕ := bisectRightAux arr val 0 arr.length

/-- contrast-detector.ts `bisectLeft` binary-search loop. -/
def bisectLeftAux (arr : List ℕ) (val : ℕ) (lo hi : ℕ) : ℕ :=
  if lo < hi then
    if arr.getD ((lo + hi) / 2) 0 < val then bisectLeftAux arr val ((lo + hi) / 2 + 1) hi
    else bisectLeftAux arr val lo ((lo + hi) / 2)
  else lo
termination_by hi - lo
decreasing_by all_goals omega

def bisectLeft (arr : List ℕ) (val : ℕ) : ℕ := bisectLeftAux arr val 0 arr.length

/-- contrast-detector.ts `coveredSentenceRange`.  The JS `hi` can be -1
(when `bisectLeft` returns 0); over ℕ that case is the `bl = 0` guard
below, and otherwise `hi = bl - 1`. -/
def coveredSentenceRange (spans : List (ℕ × ℕ)) (start stop : ℕ) :
    Option (ℕ × ℕ) :=
  if spans.isEmpty || stop ≤ start then none
  else
    let starts := spans.map Prod.fst
    let ends := spans.map Prod.snd
    let lo := bisectRight ends start
    let bl := bisectLeft starts stop
    if spans.length ≤ lo || bl = 0 || bl - 1 < lo then none
    else some (lo, bl - 1)

/-- contrast-detector.ts `CandidateInterval`. -/
structure CandidateInterval where
  lo : ℕ
  hi : ℕ
  raw_start : ℕ
  raw_end : ℕ
  pattern_name : String
  match_text : String
deriving DecidableEq

/-- The JS comparator of `mergeIntervals` (sort by `lo`, then `hi`, then
`raw_start`), as the total preorder it sorts by. -/
def ciLe (a b : CandidateInterval) : Prop :=
  a.lo < b.lo ∨ (a.lo = b.lo ∧ (a.hi < b.hi ∨ (a.hi = b.hi ∧ a.raw_start ≤ b.raw_start)))

instance : DecidableRel ciLe := fun a b => by unfold ciLe; infer_instance

instance : IsTotal CandidateInterval ciLe :=
  ⟨by intro a b; unfold ciLe; omega⟩

instance : IsTrans CandidateInterval ciLe :=
  ⟨by intro a b c; unfold ciLe; omega⟩

/-- The greedy merge loop of contrast-detector.ts `mergeIntervals`:
`cur` absorbs the next interval whenever its span range overlaps or
touches (`it.lo ≤ cur.hi`), extending `hi` and `raw_end`. -/
def mergeAux (cur : CandidateInterval) : List CandidateInterval → List CandidateInterval
  | [] => [cur]
  | it :: rest =>
    if it.lo ≤ cur.hi then
      mergeAux { cur with hi := max cur.hi it.hi, raw_end := max cur.raw_end it.raw_end } rest
    else cur :: mergeAux it rest

/-- contrast-detector.ts `mergeIntervals`: stable sort by
(lo, hi, raw_start), then greedy merge. -/
def mergeIntervals (items : List CandidateInterval) : List CandidateInterval :=
  match List.insertionSort ciLe items with
  | [] => []
  | x :: rest => mergeAux x rest

/-- contrast-detector.ts `ContrastMatch`. -/
structure ContrastMatch where
  sentence : String
  pattern_name : String
  match_text : String
  sentence_count : ℕ
deriving DecidableEq

/-- A raw regex match against the normalized text: its half-open
character range and the registry name of the pattern that produced it.
The stage-1 and stage-2 regex registries (regexes-stage1.ts,
regexes-stage2.ts) and the POS-tagged stream with its stream→raw offset
mapping are external to the sources under analysis; the pipeline is
therefore modelled from the point where each stage has produced raw
character ranges, quantifying over all possible match lists. -/
structure RawMatch where
  start : ℕ
  stop : ℕ
  name : String

/-- JS `substring(s, e)` on a character list. -/
def listSubstr (cs : List Char) (s e : ℕ) : List Char := (cs.take e).drop s

/-- Candidate construction of `extractContrastMatches` (both stages):
locate the covering sentence range, drop the match if there is none,
prefix the registry name, take the trimmed matched text. -/
def mkCandidates (spans : List (ℕ × ℕ)) (tNorm : List Char) (tag : String)
    (stage : List RawMatch) : List CandidateInterval :=
  stage.filterMap fun m =>
    (coveredSentenceRange spans m.start m.stop).map fun r =>
      { lo := r.1, hi := r.2, raw_start := m.start, raw_end := m.stop,
        pattern_name := tag ++ m.name,
        match_text := String.mk (trimWs (listSubstr tNorm m.start m.stop)) }

/-- All candidates of one `extractContrastMatches` call. -/
def contrastCandidates (text : List Char) (stage1 stage2 : List RawMatch) :
    List CandidateInterval :=
  let tNorm := normalizeText text
  let spans := sentenceSpans tNorm
  mkCandidates spans tNorm "S1_" stage1 ++ mkCandidates spans tNorm "S2_" stage2

/-- The merged intervals of one `extractContrastMatches` call. -/
def mergedIntervalsOf (text : List Char) (stage1 stage2 : List RawMatch) :
    List CandidateInterval :=
  mergeIntervals (contrastCandidates text stage1 stage2)

/-- Result construction of `extractContrastMatches`: the sentence block
`[spans[lo].start, spans[hi].end)`, trimmed. -/
def buildContrastMatch (tNorm : List Char) (spans : List (ℕ × ℕ))
    (it : CandidateInterval) : ContrastMatch :=
  let blockStart := (spans.getD it.lo (0, 0)).1
  let blockEnd := (spans.getD it.hi (0, 0)).2
  { sentence := String.mk (trimWs (listSubstr tNorm blockStart blockEnd)),
    pattern_name := it.pattern_name,
    match_text := it.match_text,
    sentence_count := it.hi - it.lo + 1 }

/-- contrast-detector.ts `extractContrastMatches`, parametrized by the
raw matches each regex stage produced (see `RawMatch`). -/
def extractContrastMatches (text : List Char) (stage1 stage2 : List RawMatch) :
    List ContrastMatch :=
  let tNorm := normalizeText text
  let spans := sentenceSpans tNorm
  (mergedIntervalsOf text stage1 stage2).map (buildContrastMatch tNorm spans)

/-! metrics.ts -/

/-- The NLTK English stopword list of metrics.ts (179 words). -/
def STOPWORDS : List String :=
  ["i", "me", "my", "myself", "we", "our", "ours", "ourselves", "you", "your", "yours",
   "yourself", "yourselves", "he", "him", "his", "himself", "she", "her", "hers", "herself",
   "it", "its", "itself", "they", "them", "their", "theirs", "themselves", "what", "which",
   "who", "whom", "this", "that", "these", "those", "am", "is", "are", "was", "were", "be",
   "been", "being", "have", "has", "had", "having", "do", "does", "did", "doing", "a", "an",
   "the", "and", "but", "if", "or", "because", "as", "until", "while", "of", "at", "by", "for",
   "with", "about", "against", "between", "into", "through", "during", "before", "after",
   "above", "below", "to", "from", "up", "down", "in", "out", "on", "off", "over", "under",
   "again", "further", "then", "once", "here", "there", "when", "where", "why", "how", "all",
   "any", "both", "each", "few", "more", "most", "other", "some", "such", "no", "nor", "not",
   "only", "own", "same", "so", "than", "too", "very", "s", "t", "can", "will", "just", "don",
   "should", "now"]

/-- metrics.ts `KNOWN_CONTRACTIONS_S`. -/
def KNOWN_CONTRACTIONS_S : List String :=
  ["it's", "that's", "what's", "who's", "he's", "she's",
   "there's", "here's", "where's", "when's", "why's", "how's",
   "let's"]

/-- metrics.ts `SlopIndexResult` (hit lists are `null` when not
tracked). -/
structure SlopIndexResult where
  wordScore : ℚ
  trigramScore : ℚ
  wordHits : Option (List (String × ℚ))
  trigramHits : Option (List (String × ℚ))
deriving DecidableEq

/-- Descending-by-count order used for the hit lists
(`sort((a, b) => b[1] - a[1])`, a stable sort). -/
def countGe (a b : String × ℚ) : Prop := b.2 ≤ a.2

instance : DecidableRel countGe := fun a b => by unfold countGe; infer_instance

/-- metrics.ts `computeSlopIndex`, with the module-level lexicon sets
passed explicitly.  Hit maps accumulate in first-occurrence order (JS
`Map` insertion order), exactly the `countItems` of the subsequence of
hits. -/
def computeSlopIndex (slopWords slopTrigrams : List String)
    (tokens : List String) (trackHits : Bool) : SlopIndexResult :=
  let n := tokens.length
  if n = 0 then ⟨0, 0, none, none⟩
  else
    let wordHitToks := tokens.filter (slopWords.contains ·)
    let tgs := if 3 ≤ n then
        (List.range (n - 2)).map
          (fun i => String.intercalate " " ((tokens.drop i).take 3))
      else []
    let triHitToks := tgs.filter (slopTrigrams.contains ·)
    let wordScore := ((wordHitToks.length : ℚ) / n) * 1000
    let trigramScore := ((triHitToks.length : ℚ) / n) * 1000
    { wordScore := wordScore, trigramScore := trigramScore,
      wordHits := if trackHits then
          some (List.insertionSort countGe (countItems wordHitToks)) else none,
      trigramHits := if trackHits then
          some (List.insertionSort countGe (countItems triHitToks)) else none }

/-- metrics.ts `contentTokens`. -/
def contentTokens (tokens : List String) : List String :=
  tokens.filter (fun t => isAlphaTok t && !(STOPWORDS.contains t))

/-- metrics.ts `makeNgrams`. -/
def makeNgrams (tokens : List String) (n : ℕ) : List String := getNgrams tokens n

/-- Descending-by-ratio order of `rankOveruseWithCounts`. -/
def ratioGe (a b : String × ℚ × ℚ) : Prop := b.2.1 ≤ a.2.1

instance : DecidableRel ratioGe := fun a b => by unfold ratioGe; infer_instance

/-- metrics.ts `rankOveruseWithCounts`.  `minHuman` is the smallest
positive baseline probability (the JS fold from `Infinity` is modelled
with an `Option`, `none` meaning no positive value was seen, in which
case the 1e-12 fallback applies). -/
def rankOveruseWithCounts (ngrams : List String)
    (humanFreqMap : List (String × ℚ)) (topK : ℕ) : List (String × ℚ × ℚ) :=
  if ngrams.isEmpty then []
  else
    let counts := countItems ngrams
    let s := (counts.map Prod.snd).sum
    let total := if s = 0 then 1 else s
    let mh := (humanFreqMap.map Prod.snd).foldl
      (fun acc v =>
        if 0 < v then
          match acc with
          | none => some v
          | some m => if v < m then some v else some m
        else acc)
      (none : Option ℚ)
    let minHuman := mh.getD (1 / 1000000000000)
    let rows := counts.map fun e =>
      (e.1, (e.2 / total) / (((mapGet humanFreqMap e.1).getD minHuman) + 1 / 1000000000000), e.2)
    (List.insertionSort ratioGe rows).take topK

/-- metrics.ts `computeMATTR`: the number of distinct tokens of a JS
`Set` is the length of `List.dedup`. -/
def computeMATTR (tokens : List String) (windowSize : ℕ) : ℚ :=
  let totalWords := tokens.length
  if totalWords = 0 then 0
  else
    let simpleTTR := (tokens.dedup.length : ℚ) / totalWords
    if windowSize ≤ totalWords then
      let idxs := List.range (totalWords - windowSize + 1)
      let sumTTR := (idxs.map
        (fun i => ((((tokens.drop i).take windowSize).dedup.length : ℚ) / windowSize))).sum
      sumTTR / idxs.length
    else simpleTTR

/-- metrics.ts `LexicalDiversity`. -/
structure LexicalDiversity where
  mattr_500 : ℚ
  type_token_ratio : ℚ
  unique_words : ℕ
  total_words : ℕ
deriving DecidableEq

/-- metrics.ts `computeLexicalDiversity`. -/
def computeLexicalDiversity (tokens : List String) : LexicalDiversity :=
  let totalWords := tokens.length
  if totalWords = 0 then ⟨0, 0, 0, 0⟩
  else
    { mattr_500 := computeMATTR tokens 500,
      type_token_ratio := (tokens.dedup.length : ℚ) / totalWords,
      unique_words := tokens.dedup.length,
      total_words := totalWords }

/-- The class `[^laeiouy]` of the syllable suffix regex. -/
def notLVowel (c : Char) : Bool :=
  !(c = 'l' || c = 'a' || c = 'e' || c = 'i' || c = 'o' || c = 'u' || c = 'y')

/-- The suffix replacement
`word.replace(/(?:[^laeiouy]es|ed|[^laeiouy]e)$/, '')` of
`countSyllables`.  The three end-anchored alternatives can only match at
offsets `n-3` (consonant + "es") or `n-2` ("ed", else consonant + "e");
the regex engine prefers the leftmost offset and, at `n-2`, the "ed"
alternative first.  When a higher-priority alternative fits structurally
but its class guard fails, no other alternative can match (the final
characters differ), so the word is returned unchanged. -/
def stripSuffixSyl (w : List Char) : List Char :=
  match w.reverse with
  | 's' :: 'e' :: c :: rest => if notLVowel c then rest.reverse else w
  | 'd' :: 'e' :: rest => rest.reverse
  | 'e' :: c :: rest => if notLVowel c then rest.reverse else w
  | _ => w

/-- The vowel set `[aeiouy]`. -/
def isVowelY (c : Char) : Bool :=
  c = 'a' || c = 'e' || c = 'i' || c = 'o' || c = 'u' || c = 'y'

/-- Global match count of the greedy `[aeiouy]{1,2}`: at each vowel the
match takes a second vowel when available, so a maximal vowel run of
length L contributes ⌈L/2⌉ matches. -/
def vowelClusters : List Char → ℕ
  | [] => 0
  | [c] => if isVowelY c then 1 else 0
  | c :: d :: cs =>
    if isVowelY c then
      if isVowelY d then 1 + vowelClusters cs else 1 + vowelClusters (d :: cs)
    else vowelClusters (d :: cs)

/-- The `countSyllables` helper of metrics.ts `computeVocabLevel`. -/
def countSyllables (w : List Char) : ℕ :=
  let w := w.map Char.toLower
  if w.length ≤ 3 then 1
  else
    let w1 := stripSuffixSyl w
    let w2 := match w1 with
      | 'y' :: rest => rest
      | _ => w1
    let n := vowelClusters w2
    if n = 0 then 1 else n

/-- The sentence list of metrics.ts `computeVocabLevel` and
`computeAverageSentenceLength`: `text.split(/[.!?]+/)` filtered to
segments with non-whitespace content. -/
def fkSentences (text : List Char) : List (List Char) :=
  (jsSplit isTermChar text).filter nonBlank

/-- The word list `text.match(/\b\w+\b/g)`: the maximal runs of `\w`
characters. -/
def fkWords (text : List Char) : List (List Char) :=
  extractRuns isWordChar text

/-- metrics.ts `computeVocabLevel` (Flesch–Kincaid grade level,
clamped below at 0; degenerate inputs short-circuit to 0). -/
def computeVocabLevel (text : List Char) : ℚ :=
  let sentences := fkSentences text
  let words := fkWords text
  if sentences.length = 0 || words.length = 0 then 0
  else
    let totalSyllables := (words.map countSyllables).sum
    let avgSyllablesPerWord := (totalSyllables : ℚ) / words.length
    let avgWordsPerSentence := (words.length : ℚ) / sentences.length
    max 0 (0.39 * avgWordsPerSentence + 11.8 * avgSyllablesPerWord - 15.59)

/-- metrics.ts `computeAverageSentenceLength`. -/
def computeAverageSentenceLength (text : List Char) : ℚ :=
  let sentences := fkSentences text
  let words := fkWords text
  if sentences.length = 0 then 0 else (words.length : ℚ) / sentences.length

/-- metrics.ts `computeAverageParagraphLength` (paragraphs split on
`/\n\s*\n/`). -/
def computeAverageParagraphLength (text : List Char) : ℚ :=
  let paragraphs := (paraSplit text).filter nonBlank
  let words := fkWords text
  if paragraphs.length = 0 then 0 else (words.length : ℚ) / paragraphs.length

/-- metrics.ts `computeDialogueFrequency` (the quote class holds the
ASCII double quote and the two curly double quotes). -/
def computeDialogueFrequency (text : List Char) : ℚ :=
  let quotes := (text.filter (fun c => c = '"' || c = '“' || c = '”')).length
  let chars := text.length
  if chars = 0 then 0 else ((quotes : ℚ) / 2 / chars) * 1000

/-- A min/max calibration range of metrics.ts `NORMALIZATION_RANGES`. -/
structure NormRange where
  min : ℚ
  max : ℚ

def slop_words_range : NormRange := ⟨2.1214882577844882, 43.924784489934034⟩

def slop_trigrams_range : NormRange := ⟨-0.027052241145113065, 1.2293612202273094⟩

def contrast_range : NormRange := ⟨-0.0323480255696472, 0.8881555162544392⟩

/-- metrics.ts `normalizeValue`: min-max normalize then clamp to
[0, 1]. -/
def normalizeValue (value : ℚ) (range : NormRange) : ℚ :=
  max 0 (min 1 ((value - range.min) / (range.max - range.min)))

/-- metrics.ts `computeSlopScore`: weighted combination
60% words + 25% contrast + 15% trigrams, scaled to [0, 100]. -/
def computeSlopScore (wordScore trigramScore contrastRate : ℚ) : ℚ :=
  let normWords := normalizeValue wordScore slop_words_range
  let normTrigrams := normalizeValue trigramScore slop_trigrams_range
  let normContrast := normalizeValue contrastRate contrast_range
  (normWords * 0.6 + normContrast * 0.25 + normTrigrams * 0.15) * 100

/-- True exactly when `word.endsWith("'s")`. -/
def endsApostS (w : String) : Bool :=
  match w.data.reverse with
  | 's' :: '\'' :: _ => true
  | _ => false

/-- metrics.ts `mergePossessives`. -/
def mergePossessives (wordCounts : List (String × ℚ)) : List (String × ℚ) :=
  wordCounts.foldl
    (fun merged e =>
      if endsApostS e.1 && !(KNOWN_CONTRACTIONS_S.contains e.1) then
        let baseWord := String.mk (e.1.data.take (e.1.data.length - 2))
        if baseWord ≠ "" then
          mapSet merged baseWord ((mapGet merged baseWord).getD 0 + e.2)
        else mapSet merged e.1 ((mapGet merged e.1).getD 0 + e.2)
      else mapSet merged e.1 ((mapGet merged e.1).getD 0 + e.2))
    []

/-- The key under which `loadHumanProfile`'s `norm` stores an entry:
the space-joined `[a-z]+` runs of the lowercased ngram, provided there
are at least two of them. -/
def humanKey (e : String × ℚ) : Option String :=
  let toks := extractRuns isLowerAlpha (e.1.data.map Char.toLower)
  if toks.length < 2 then none
  else some (String.intercalate " " (toks.map String.mk))

/-- Total frequency of a decoded baseline list (the `total`
accumulated over ALL entries by `norm`, including entries that are
later discarded). -/
def totalFrequency (list : List (String × ℚ)) : ℚ := (list.map Prod.snd).sum

/-- The `norm` helper of metrics.ts `loadHumanProfile`, applied to a
decoded `{ngram, frequency}` list (decompression, JSON parsing and the
`Number(...) || 0` coercion are external to this model; an entry is a
pair of the raw ngram string and its numeric frequency).  Note `total`
sums every entry's frequency, while only entries with ≥ 2 alphabetic
tokens are stored. -/
def normHumanList (list : List (String × ℚ)) : List (String × ℚ) :=
  let total := totalFrequency list
  if total ≤ 0 then []
  else
    list.foldl
      (fun m it =>
        match humanKey it with
        | none => m
        | some k => mapSet m k (it.2 / total))
      []

/-- The module-level stores of metrics.ts, passed explicitly: the slop
lexicon word and trigram sets, the human baseline maps, and the
wordfreq-backed `lookupFrequency` (whose value involves
`Math.pow(10, zipf - 9)`, a transcendental the claims never evaluate;
it is modelled as an abstract lookup returning `none` for the JS
`null`). -/
structure MetricsCtx where
  slopWords : List String
  slopTrigrams : List String
  humanBigramFreq : List (String × ℚ)
  humanTrigramFreq : List (String × ℚ)
  freqLookup : String → Option ℚ

/-- metrics.ts `AnalyzeOptions`. -/
structure AnalyzeOptions where
  file : String
  includeWordHits : Bool
  includeTrigramHits : Bool
  includeOverRepresented : Bool
  includeContrastMatches : Bool

/-- An entry of `top_over_represented.words`. -/
structure OverrepWord where
  word : String
  ratio : ℚ
  count : ℚ
deriving DecidableEq

/-- An entry of `top_over_represented.bigrams`/`.trigrams`. -/
structure OverrepPhrase where
  phrase : String
  ratio : ℚ
  count : ℚ
deriving DecidableEq

/-- metrics.ts `top_over_represented`. -/
structure OverrepTables where
  words : List OverrepWord
  bigrams : List OverrepPhrase
  trigrams : List OverrepPhrase
deriving DecidableEq

/-- metrics.ts `AnalyzeResult.metrics`. -/
structure AnalyzeMetrics where
  slop_words_per_1k : ℚ
  slop_trigrams_per_1k : ℚ
  ngram_repetition_score : ℚ
  not_x_but_y_per_1k_chars : ℚ
  lexical_diversity : LexicalDiversity
  vocab_level : ℚ
  avg_sentence_length : ℚ
  avg_paragraph_length : ℚ
  dialogue_frequency : ℚ
deriving DecidableEq

/-- metrics.ts `AnalyzeResult` (optional JSON fields as `Option`). -/
structure AnalyzeResult where
  file : String
  total_chars : ℕ
  total_words : ℕ
  slop_score : ℚ
  metrics : AnalyzeMetrics
  slop_word_hits : Option (List (String × ℚ))
  slop_trigram_hits : Option (List (String × ℚ))
  top_over_represented : Option OverrepTables
  contrast_matches : Option (List ContrastMatch)
deriving DecidableEq

/-- Descending-by-ratio order of the over-represented word list. -/
def overrepGe (a b : OverrepWord) : Prop := b.ratio ≤ a.ratio

instance : DecidableRel overrepGe := fun a b => by unfold overrepGe; infer_instance

/-- The `includeOverRepresented` block of `analyzeText` (word part). -/
def overrepWords (ctx : MetricsCtx) (toksContent : List String) : List OverrepWord :=
  let wordCounts := mergePossessives (countItems toksContent)
  let totalWords := (wordCounts.map Prod.snd).sum
  let wordOverrep := wordCounts.filterMap fun e =>
    match ctx.freqLookup e.1 with
    | none => none
    | some baselineFreq =>
      let modelFreq := e.2 / totalWords
      let ratio := modelFreq / baselineFreq
      if 3 / 2 < ratio ∧ (2 : ℚ) ≤ e.2 then some ⟨e.1, ratio, e.2⟩ else none
  (List.insertionSort overrepGe wordOverrep).take 100

/-- metrics.ts `analyzeText`, with the module stores (`ctx`) and the
contrast detector (`contrastFn`, standing for
`extractContrastMatches` with its externally produced regex matches)
passed explicitly. -/
def analyzeText (ctx : MetricsCtx) (contrastFn : List Char → List ContrastMatch)
    (text : List Char) (opts : AnalyzeOptions) : AnalyzeResult :=
  let chars := text.length
  let toks0 := wordsOnlyLower text
  let toks := alphaTokens toks0
  let nWords := toks.length
  if nWords = 0 then
    { file := opts.file, total_chars := chars, total_words := 0, slop_score := 0,
      metrics :=
        { slop_words_per_1k := 0, slop_trigrams_per_1k := 0,
          ngram_repetition_score := 0, not_x_but_y_per_1k_chars := 0,
          lexical_diversity := ⟨0, 0, 0, 0⟩, vocab_level := 0,
          avg_sentence_length := 0, avg_paragraph_length := 0,
          dialogue_frequency := 0 },
      slop_word_hits := none, slop_trigram_hits := none,
      top_over_represented := none, contrast_matches := none }
  else
    let trackHits := opts.includeWordHits || opts.includeTrigramHits
    let slopResult := computeSlopIndex ctx.slopWords ctx.slopTrigrams toks trackHits
    let toksContent := contentTokens toks
    let bigs := makeNgrams toksContent 2
    let tris := makeNgrams toksContent 3
    let topBCounts := rankOveruseWithCounts bigs ctx.humanBigramFreq 40
    let topTCounts := rankOveruseWithCounts tris ctx.humanTrigramFreq 40
    let top_bigram_count := (topBCounts.map (fun r => r.2.2)).sum
    let top_trigram_count := (topTCounts.map (fun r => r.2.2)).sum
    let content_word_count := toksContent.length
    let repetition_score :=
      if 0 < content_word_count then
        ((top_bigram_count + top_trigram_count) / (content_word_count : ℚ)) * 1000
      else 0
    let contrastMatches := contrastFn text
    let contrastRate := if 0 < chars then ((contrastMatches.length : ℚ) / chars) * 1000 else 0
    let lexicalDiversity := computeLexicalDiversity toks
    let vocabLevel := computeVocabLevel text
    let avgSentenceLength := computeAverageSentenceLength text
    let avgParagraphLength := computeAverageParagraphLength text
    let dialogueFrequency := computeDialogueFrequency text
    let slopScore := computeSlopScore slopResult.wordScore slopResult.trigramScore contrastRate
    { file := opts.file, total_chars := chars, total_words := nWords,
      slop_score := slopScore,
      metrics :=
        { slop_words_per_1k := slopResult.wordScore,
          slop_trigrams_per_1k := slopResult.trigramScore,
          ngram_repetition_score := repetition_score,
          not_x_but_y_per_1k_chars := contrastRate,
          lexical_diversity := lexicalDiversity,
          vocab_level := vocabLevel,
          avg_sentence_length := avgSentenceLength,
          avg_paragraph_length := avgParagraphLength,
          dialogue_frequency := dialogueFrequency },
      slop_word_hits := if opts.includeWordHits then some (slopResult.wordHits.getD []) else none,
      slop_trigram_hits := if opts.includeTrigramHits then some (slopResult.trigramHits.getD []) else none,
      top_over_represented :=
        if opts.includeOverRepresented then
          some { words := overrepWords ctx toksContent,
                 bigrams := (topBCounts.take 100).map (fun r => ⟨r.1, r.2.1, r.2.2⟩),
                 trigrams := (topTCounts.take 100).map (fun r => ⟨r.1, r.2.1, r.2.2⟩) }
        else none,
      contrast_matches :=
        if opts.includeContrastMatches then some (contrastMatches.take 100) else none }

/-- Tiling predicate: `Tiles sp a b` says the spans `sp` tile the half-open interval
`[a, b)` exactly — each span is non-empty, starts where its
predecessor ended (the first at `a`), and the last ends at `b`. -/
def Tiles : List (ℕ × ℕ) → ℕ → ℕ → Prop
  | [], a, b => a = b
  | x :: rest, a, b => x.1 = a ∧ a < x.2 ∧ Tiles rest x.2 b

/-! Theorems.  First the tiling facts about `sentenceSpans` (claim C3),
which the contrast-detector invariants (claim C2) also rely on. -/

theorem tiles_le : ∀ (sp : List (ℕ × ℕ)) (a b : ℕ), Tiles sp a b → a ≤ b := by
  intro sp
  induction sp with
  | nil => intro a b h; exact Nat.le_of_eq h
  | cons x rest ih =>
    intro a b h
    obtain ⟨-, h2, h3⟩ := h
    exact Nat.le_trans (Nat.le_of_lt h2) (ih _ _ h3)

theorem spansAux_tiles (cs : List Char) :
    ∀ start pos, start ≤ pos → Tiles (spansAux cs start pos) start (pos + cs.length) := by
  induction cs with
  | nil =>
    intro start pos h
    simp only [spansAux, List.length_nil, Nat.add_zero]
    split
    · exact ⟨rfl, by omega, rfl⟩
    · show start = pos
      omega
  | cons c cs ih =>
    intro start pos h
    simp only [spansAux, List.length_cons]
    have e : pos + (cs.length + 1) = (pos + 1) + cs.length := by omega
    rw [e]
    split
    · exact ⟨rfl, by omega, ih (pos + 1) (pos + 1) le_rfl⟩
    · exact ih start (pos + 1) (by omega)

theorem tiles_chain : ∀ (sp : List (ℕ × ℕ)) (a b : ℕ), Tiles sp a b →
    sp.Chain' (fun x y => x.2 = y.1) := by
  intro sp
  induction sp with
  | nil => intro a b _; exact List.chain'_nil
  | cons x rest ih =>
    intro a b h
    obtain ⟨-, -, h3⟩ := h
    match rest, h3 with
    | [], _ => exact List.chain'_singleton x
    | y :: l, h3 => exact List.chain'_cons.mpr ⟨h3.1.symm, ih _ _ h3⟩

theorem tiles_mem : ∀ (sp : List (ℕ × ℕ)) (a b : ℕ), Tiles sp a b →
    ∀ x ∈ sp, a ≤ x.1 ∧ x.1 < x.2 ∧ x.2 ≤ b := by
  intro sp
  induction sp with
  | nil => intro a b _ x hx; cases hx
  | cons y rest ih =>
    intro a b h x hx
    obtain ⟨h1, h2, h3⟩ := h
    rcases List.mem_cons.mp hx with rfl | hx
    · exact ⟨Nat.le_of_eq h1.symm, h1 ▸ h2, tiles_le _ _ _ h3⟩
    · have hh := ih _ _ h3 x hx
      exact ⟨by omega, hh.2.1, hh.2.2⟩

theorem tiles_pairwise : ∀ (sp : List (ℕ × ℕ)) (a b : ℕ), Tiles sp a b →
    sp.Pairwise (fun x y => x.1 < y.1 ∧ x.2 ≤ y.1) := by
  intro sp
  induction sp with
  | nil => intro a b _; exact List.Pairwise.nil
  | cons y rest ih =>
    intro a b h
    obtain ⟨h1, h2, h3⟩ := h
    refine List.Pairwise.cons ?_ (ih _ _ h3)
    intro x hx
    have hh := tiles_mem _ _ _ h3 x hx
    constructor
    · omega
    · exact hh.1

theorem tiles_last : ∀ (sp : List (ℕ × ℕ)) (a b : ℕ), Tiles sp a b → sp ≠ [] →
    (sp.getLast?).map Prod.snd = some b := by
  intro sp
  induction sp with
  | nil => intro a b _ hne; exact absurd rfl hne
  | cons x rest ih =>
    intro a b h _
    obtain ⟨-, -, h3⟩ := h
    match rest, h3 with
    | [], h3 =>
      simp only [List.getLast?_singleton, Option.map_some]
      exact congrArg some h3
    | y :: l, h3 =>
      rw [List.getLast?_cons_cons]
      exact ih _ _ h3 (by simp)

theorem sentenceSpans_tiles (text : List Char) :
    Tiles (sentenceSpans text) 0 text.length := by
  have h := spansAux_tiles text 0 0 le_rfl
  simpa [sentenceSpans] using h

/-- Claim C3: for every input text, the span list returned by
`sentenceSpans` tiles `[0, len text)` exactly — consecutive spans are
contiguous (each start equals the previous end), spans are pairwise
non-overlapping, every span is non-empty, the first span starts at 0
and the last ends at `len text` when the text is non-empty (any
trailing unterminated text forming the final span), and the empty text
yields no spans. -/
theorem sentenceSpans_tile_exactly (text : List Char) :
    ((sentenceSpans text).Chain' fun x y => x.2 = y.1) ∧
    ((sentenceSpans text).Pairwise fun x y => x.2 ≤ y.1) ∧
    (∀ x ∈ sentenceSpans text, x.1 < x.2) ∧
    (text ≠ [] → ((sentenceSpans text).head?).map Prod.fst = some 0 ∧
      ((sentenceSpans text).getLast?).map Prod.snd = some text.length) ∧
    (text = [] → sentenceSpans text = []) := by
  have ht := sentenceSpans_tiles text
  refine ⟨tiles_chain _ _ _ ht, ?_, ?_, ?_, ?_⟩
  · exact (tiles_pairwise _ _ _ ht).imp (fun h => h.2)
  · intro x hx; exact (tiles_mem _ _ _ ht x hx).2.1
  · intro hne
    have hsp : sentenceSpans text ≠ [] := by
      intro hnil
      rw [hnil] at ht
      have : (0 : ℕ) = text.length := ht
      exact hne (List.length_eq_zero.mp this.symm)
    constructor
    · match hsp2 : sentenceSpans text, ht with
      | x :: rest, ht =>
        simp only [List.head?_cons, Option.map_some]
        exact congrArg some ht.1
      | [], ht => exact absurd hsp2 (hsp2 ▸ hsp)
    · exact tiles_last _ _ _ ht hsp
  · intro he
    subst he
    rfl

/-- Witness for C3 at the concrete text "ab.". -/
theorem sentenceSpans_tile_exactly_witness :
    ("ab.".data ≠ []) ∧
    (((sentenceSpans "ab.".data).head?).map Prod.fst = some 0 ∧
      ((sentenceSpans "ab.".data).getLast?).map Prod.snd = some "ab.".data.length) :=
  ⟨by decide, (sentenceSpans_tile_exactly "ab.".data).2.2.2.1 (by decide)⟩

/-! Claim C2: invariants of the merged contrast matches. -/

theorem ciLe_lo {a b : CandidateInterval} (h : ciLe a b) : a.lo ≤ b.lo := by
  unfold ciLe at h
  omega

theorem mergeAux_lo_mem : ∀ (rest : List CandidateInterval) (cur y : CandidateInterval),
    y ∈ mergeAux cur rest → y.lo = cur.lo ∨ ∃ x ∈ rest, y.lo = x.lo := by
  intro rest
  induction rest with
  | nil =>
    intro cur y hy
    rw [mergeAux, List.mem_singleton] at hy
    exact Or.inl (hy ▸ rfl)
  | cons it rest ih =>
    intro cur y hy
    rw [mergeAux] at hy
    split at hy
    · rcases ih _ y hy with h | ⟨x, hx, h⟩
      · exact Or.inl h
      · exact Or.inr ⟨x, List.mem_cons_of_mem _ hx, h⟩
    · rcases List.mem_cons.mp hy with rfl | hy2
      · exact Or.inl rfl
      · rcases ih it y hy2 with h | ⟨x, hx, h⟩
        · exact Or.inr ⟨it, List.mem_cons_self _ _, h⟩
        · exact Or.inr ⟨x, List.mem_cons_of_mem _ hx, h⟩

theorem mergeAux_pairwise : ∀ (rest : List CandidateInterval) (cur : CandidateInterval),
    (∀ x ∈ rest, cur.lo ≤ x.lo) → rest.Pairwise (fun a b => a.lo ≤ b.lo) →
    (mergeAux cur rest).Pairwise (fun a b => a.hi < b.lo) := by
  intro rest
  induction rest with
  | nil =>
    intro cur _ _
    rw [mergeAux]
    exact List.pairwise_singleton _ _
  | cons it rest ih =>
    intro cur hall hpw
    rw [mergeAux]
    split
    · refine ih _ (fun x hx => ?_) (List.Pairwise.of_cons hpw)
      exact hall x (List.mem_cons_of_mem _ hx)
    · rename_i hgt
      have hcur : cur.hi < it.lo := by omega
      refine List.Pairwise.cons (fun y hy => ?_)
        (ih it (fun x hx => List.rel_of_pairwise_cons hpw hx) (List.Pairwise.of_cons hpw))
      rcases mergeAux_lo_mem rest it y hy with h | ⟨x, hx, h⟩
      · omega
      · have := List.rel_of_pairwise_cons hpw hx
        omega

theorem mergeAux_bounds (n : ℕ) : ∀ (rest : List CandidateInterval) (cur : CandidateInterval),
    cur.lo ≤ cur.hi ∧ cur.hi < n → (∀ x ∈ rest, x.lo ≤ x.hi ∧ x.hi < n) →
    ∀ y ∈ mergeAux cur rest, y.lo ≤ y.hi ∧ y.hi < n := by
  intro rest
  induction rest with
  | nil =>
    intro cur hcur _ y hy
    rw [mergeAux, List.mem_singleton] at hy
    exact hy ▸ hcur
  | cons it rest ih =>
    intro cur hcur hall y hy
    rw [mergeAux] at hy
    split at hy
    · refine ih _ ?_ (fun x hx => hall x (List.mem_cons_of_mem _ hx)) y hy
      have hit := hall it (List.mem_cons_self _ _)
      constructor
      · show cur.lo ≤ max cur.hi it.hi
        omega
      · show max cur.hi it.hi < n
        omega
    · rcases List.mem_cons.mp hy with rfl | hy2
      · exact hcur
      · exact ih it (hall it (List.mem_cons_self _ _))
          (fun x hx => hall x (List.mem_cons_of_mem _ hx)) y hy2

theorem mergeIntervals_pairwise (items : List CandidateInterval) :
    (mergeIntervals items).Pairwise (fun a b => a.hi < b.lo) := by
  unfold mergeIntervals
  match h : List.insertionSort ciLe items with
  | [] => exact List.Pairwise.nil
  | x :: rest =>
    have hs : (x :: rest).Pairwise ciLe := h ▸ List.sorted_insertionSort ciLe items
    have hlo : (x :: rest).Pairwise (fun a b => a.lo ≤ b.lo) :=
      hs.imp (fun hab => ciLe_lo hab)
    exact mergeAux_pairwise rest x (fun y hy => List.rel_of_pairwise_cons hlo hy)
      (List.Pairwise.of_cons hlo)

theorem mergeIntervals_bounds (n : ℕ) (items : List CandidateInterval)
    (hall : ∀ x ∈ items, x.lo ≤ x.hi ∧ x.hi < n) :
    ∀ y ∈ mergeIntervals items, y.lo ≤ y.hi ∧ y.hi < n := by
  unfold mergeIntervals
  match h : List.insertionSort ciLe items with
  | [] => intro y hy; cases hy
  | x :: rest =>
    have hmem : ∀ z ∈ x :: rest, z.lo ≤ z.hi ∧ z.hi < n := by
      intro z hz
      exact hall z ((List.perm_insertionSort ciLe items).mem_iff.mp (h ▸ hz))
    exact mergeAux_bounds n rest x (hmem x (List.mem_cons_self _ _))
      (fun z hz => hmem z (List.mem_cons_of_mem _ hz))

theorem bisectLeftAux_le (arr : List ℕ) (val : ℕ) :
    ∀ (n lo hi : ℕ), hi - lo ≤ n → lo ≤ hi → bisectLeftAux arr val lo hi ≤ hi := by
  intro n
  induction n with
  | zero =>
    intro lo hi h1 h2
    rw [bisectLeftAux]
    have hn : ¬ lo < hi := by omega
    simp [hn]
    omega
  | succ n ih =>
    intro lo hi h1 h2
    rw [bisectLeftAux]
    split
    · rename_i hlt
      split
      · exact ih ((lo + hi) / 2 + 1) hi (by omega) (by omega)
      · have := ih lo ((lo + hi) / 2) (by omega) (by omega)
        omega
    · omega

theorem coveredSentenceRange_valid (spans : List (ℕ × ℕ)) (s e : ℕ) (r : ℕ × ℕ)
    (h : coveredSentenceRange spans s e = some r) :
    r.1 ≤ r.2 ∧ r.2 < spans.length := by
  unfold coveredSentenceRange at h
  split at h
  · cases h
  · dsimp only at h
    split at h
    · cases h
    · rename_i hguard
      injection h with h
      subst h
      simp only [Bool.or_eq_true, decide_eq_true_eq, not_or] at hguard
      obtain ⟨⟨hlo, hbl⟩, hord⟩ := hguard
      have hble : bisectLeft (spans.map Prod.fst) e ≤ spans.length := by
        have := bisectLeftAux_le (spans.map Prod.fst) e (spans.map Prod.fst).length 0
          (spans.map Prod.fst).length (by omega) (by omega)
        simpa [bisectLeft] using this
      refine ⟨by omega, by omega⟩

theorem contrastCandidates_valid (text : List Char) (stage1 stage2 : List RawMatch) :
    ∀ c ∈ contrastCandidates text stage1 stage2,
      c.lo ≤ c.hi ∧ c.hi < (sentenceSpans (normalizeText text)).length := by
  intro c hc
  unfold contrastCandidates at hc
  have hmk : ∀ (tag : String) (stage : List RawMatch),
      c ∈ mkCandidates (sentenceSpans (normalizeText text)) (normalizeText text) tag stage →
      c.lo ≤ c.hi ∧ c.hi < (sentenceSpans (normalizeText text)).length := by
    intro tag stage hmem
    unfold mkCandidates at hmem
    rcases List.mem_filterMap.mp hmem with ⟨m, -, hm⟩
    rcases Option.map_eq_some'.mp hm with ⟨r, hcov, hbuild⟩
    have hv := coveredSentenceRange_valid _ _ _ _ hcov
    rw [← hbuild] at *
    exact hv
  rcases List.mem_append.mp hc with hmem | hmem
  · exact hmk _ _ hmem
  · exact hmk _ _ hmem

/-- Claim C2: for every input text (and any raw matches the two regex
stages produce), the merged contrast intervals are pairwise
non-overlapping in sentence-span-index terms — the `[lo, hi]` span
ranges are disjoint and do not even touch — and the resulting
`ContrastMatch` list, which is exactly the merged intervals rendered in
order, is sorted strictly by the start offset of each match's sentence
block. -/
theorem extractContrastMatches_disjoint_sorted (text : List Char)
    (stage1 stage2 : List RawMatch) :
    ((mergedIntervalsOf text stage1 stage2).Pairwise fun a b => a.hi < b.lo) ∧
    (((mergedIntervalsOf text stage1 stage2).map fun it =>
        ((sentenceSpans (normalizeText text)).getD it.lo (0, 0)).1).Pairwise (· < ·)) ∧
    extractContrastMatches text stage1 stage2 =
      (mergedIntervalsOf text stage1 stage2).map
        (buildContrastMatch (normalizeText text) (sentenceSpans (normalizeText text))) := by
  have hpw : (mergedIntervalsOf text stage1 stage2).Pairwise fun a b => a.hi < b.lo :=
    mergeIntervals_pairwise (contrastCandidates text stage1 stage2)
  refine ⟨hpw, ?_, rfl⟩
  have hb : ∀ y ∈ mergedIntervalsOf text stage1 stage2,
      y.lo ≤ y.hi ∧ y.hi < (sentenceSpans (normalizeText text)).length :=
    mergeIntervals_bounds _ _ (contrastCandidates_valid text stage1 stage2)
  have htiles := sentenceSpans_tiles (normalizeText text)
  have hstart := tiles_pairwise _ _ _ htiles
  have hidx : ∀ i j, i < j → j < (sentenceSpans (normalizeText text)).length →
      ((sentenceSpans (normalizeText text)).getD i (0, 0)).1 <
        ((sentenceSpans (normalizeText text)).getD j (0, 0)).1 := by
    intro i j hij hj
    have hi : i < (sentenceSpans (normalizeText text)).length := by omega
    rw [List.getD_eq_getElem _ _ hi, List.getD_eq_getElem _ _ hj]
    have := List.pairwise_iff_get.mp hstart ⟨i, hi⟩ ⟨j, hj⟩ hij
    simpa using this.1
  rw [List.pairwise_map]
  refine hpw.imp_of_mem ?_
  intro a b ha hb2 hab
  have hba := hb a ha
  have hbb := hb b hb2
  exact hidx a.lo b.lo (by omega) (by omega)

/-! Claim C1: bounds and monotonicity of the composite score. -/

theorem normalizeValue_nonneg (v : ℚ) (r : NormRange) : 0 ≤ normalizeValue v r :=
  le_max_left 0 _

theorem normalizeValue_le_one (v : ℚ) (r : NormRange) : normalizeValue v r ≤ 1 :=
  max_le (by norm_num) (min_le_left _ _)

theorem normalizeValue_mono (r : NormRange) (hr : r.min < r.max) {v v' : ℚ}
    (h : v ≤ v') : normalizeValue v r ≤ normalizeValue v' r := by
  unfold normalizeValue
  have hd : 0 < r.max - r.min := by linarith
  have hdiv : (v - r.min) / (r.max - r.min) ≤ (v' - r.min) / (r.max - r.min) :=
    div_le_div_of_nonneg_right (by linarith) hd.le
  exact max_le_max le_rfl (min_le_min le_rfl hdiv)

theorem slop_words_range_lt : slop_words_range.min < slop_words_range.max := by
  norm_num [slop_words_range]

theorem slop_trigrams_range_lt : slop_trigrams_range.min < slop_trigrams_range.max := by
  norm_num [slop_trigrams_range]

theorem contrast_range_lt : contrast_range.min < contrast_range.max := by
  norm_num [contrast_range]

/-- Claim C1: for all inputs, `computeSlopScore` lies in `[0, 100]`,
and it is monotonically non-decreasing in each of its three inputs
(stated jointly: raising any or all of the word, trigram and contrast
components never lowers the score). -/
theorem computeSlopScore_bounds_monotone (w t c w' t' c' : ℚ)
    (hw : w ≤ w') (ht : t ≤ t') (hc : c ≤ c') :
    (0 ≤ computeSlopScore w t c ∧ computeSlopScore w t c ≤ 100) ∧
    computeSlopScore w t c ≤ computeSlopScore w' t' c' := by
  unfold computeSlopScore
  have hw0 := normalizeValue_nonneg w slop_words_range
  have ht0 := normalizeValue_nonneg t slop_trigrams_range
  have hc0 := normalizeValue_nonneg c contrast_range
  have hw1 := normalizeValue_le_one w slop_words_range
  have ht1 := normalizeValue_le_one t slop_trigrams_range
  have hc1 := normalizeValue_le_one c contrast_range
  have hwm := normalizeValue_mono slop_words_range slop_words_range_lt hw
  have htm := normalizeValue_mono slop_trigrams_range slop_trigrams_range_lt ht
  have hcm := normalizeValue_mono contrast_range contrast_range_lt hc
  refine ⟨⟨?_, ?_⟩, ?_⟩ <;> · dsimp only; nlinarith

/-- Witness for C1 at the concrete inputs (0, 0, 0) ≤ (1, 2, 3). -/
theorem computeSlopScore_bounds_monotone_witness :
    ((0 : ℚ) ≤ 1 ∧ (0 : ℚ) ≤ 2 ∧ (0 : ℚ) ≤ 3) ∧
    ((0 ≤ computeSlopScore 0 0 0 ∧ computeSlopScore 0 0 0 ≤ 100) ∧
      computeSlopScore 0 0 0 ≤ computeSlopScore 1 2 3) :=
  ⟨⟨by decide, by decide, by decide⟩,
    computeSlopScore_bounds_monotone 0 0 0 1 2 3 (by decide) (by decide) (by decide)⟩

/-! Claim C4: which assignment wins when a word occurs in several
cBpack buckets. -/

theorem mapGet_mapSet {α : Type} (m : List (String × α)) (k : String) (v : α)
    (w : String) :
    mapGet (mapSet m k v) w = if k = w then some v else mapGet m w := by
  induction m with
  | nil => simp [mapSet, mapGet]
  | cons e m ih =>
    obtain ⟨a, b⟩ := e
    simp only [mapSet]
    split
    · rename_i hak
      subst hak
      simp only [mapGet]
      by_cases hw : a = w
      · subst hw
        simp
      · simp [hw]
    · rename_i hak
      simp only [mapGet]
      by_cases hw : a = w
      · subst hw
        have hkw : ¬ k = a := fun h => hak h.symm
        simp [hkw]
      · simp [hw, ih]

theorem mapGet_foldl_setAll (ws : List String) (z : ℚ) :
    ∀ (m : List (String × ℚ)) (w : String),
    mapGet (ws.foldl (fun acc x => mapSet acc x z) m) w =
      if w ∈ ws then some z else mapGet m w := by
  induction ws with
  | nil => intro m w; simp
  | cons u ws ih =>
    intro m w
    simp only [List.foldl_cons]
    rw [ih]
    by_cases hm : w ∈ ws
    · simp [hm]
    · by_cases hw : u = w
      · subst hw
        simp [hm, mapGet_mapSet]
      · have hwu : ¬ w = u := fun h => hw h.symm
        simp [hm, mapGet_mapSet, hw, hwu]

theorem buildWordfreqAux_last (b : List String) (w : String) (hw : w ∈ b) :
    ∀ (l : List (List String)) (i : ℕ) (m : List (String × ℚ)),
    mapGet (buildWordfreqAux (l ++ [b]) i m) w =
      some ((-(((i + l.length : ℕ) : ℚ)) + 900) / 100) := by
  intro l
  induction l with
  | nil =>
    intro i m
    have hb : 0 < b.length := List.length_pos.mpr (List.ne_nil_of_mem hw)
    simp only [List.nil_append, buildWordfreqAux, gt_iff_lt, if_pos hb]
    rw [mapGet_foldl_setAll, if_pos hw]
    simp
  | cons ws l ih =>
    intro i m
    simp only [List.cons_append, buildWordfreqAux, List.append_eq]
    rw [ih]
    congr 2
    push_cast
    simp only [List.length_cons]
    push_cast
    ring

theorem buildWordfreqAux_append :
    ∀ (l1 l2 : List (List String)) (i : ℕ) (m : List (String × ℚ)),
    buildWordfreqAux (l1 ++ l2) i m =
      buildWordfreqAux l2 (i + l1.length) (buildWordfreqAux l1 i m) := by
  intro l1
  induction l1 with
  | nil => intro l2 i m; simp [buildWordfreqAux]
  | cons ws l1 ih =>
    intro l2 i m
    simp only [List.cons_append, buildWordfreqAux, List.length_cons, List.append_eq]
    rw [ih]
    congr 1
    omega

theorem buildWordfreqAux_not_mem (w : String) :
    ∀ (l : List (List String)) (i : ℕ) (m : List (String × ℚ)),
    (∀ bucket ∈ l, w ∉ bucket) →
    mapGet (buildWordfreqAux l i m) w = mapGet m w := by
  intro l
  induction l with
  | nil => intro i m _; rfl
  | cons ws l ih =>
    intro i m hl
    simp only [buildWordfreqAux]
    rw [ih _ _ (fun bucket hb => hl bucket (List.mem_cons_of_mem _ hb))]
    split
    · rw [mapGet_foldl_setAll,
        if_neg (hl ws (List.mem_cons_self _ _))]
    · rfl

/-- Claim C4 (amended): when a word appears in more than one bucket,
the value stored by `loadWordfreq`'s map-building loop is the zipf of
the LAST (highest-index) bucket that contains it — `Map.set`
overwrites, so the last assignment wins.  Stated for an arbitrary
bucket array decomposed around that last containing bucket: earlier
buckets `bins` are arbitrary, `b` contains the word, and no later
bucket in `rest` does. -/
theorem loadWordfreq_last_assignment_wins (bins : List (List String))
    (b : List String) (rest : List (List String)) (w : String) (hw : w ∈ b)
    (hrest : ∀ bucket ∈ rest, w ∉ bucket) :
    mapGet (buildWordfreqMap (bins ++ [b] ++ rest)) w =
      some ((-((bins.length : ℚ)) + 900) / 100) := by
  unfold buildWordfreqMap
  rw [buildWordfreqAux_append (bins ++ [b]) rest 0 []]
  rw [buildWordfreqAux_not_mem w rest _ _ hrest]
  have h := buildWordfreqAux_last b w hw bins 0 []
  simpa using h

/-- Witness for C4 (amended): "a" sits in buckets 1 and 2 and in no
later bucket; the stored zipf is that of bucket 2. -/
theorem loadWordfreq_last_assignment_wins_witness :
    ("a" ∈ ["a", "c"]) ∧
    (∀ bucket ∈ [["b"], ["d"]], "a" ∉ bucket) ∧
    mapGet (buildWordfreqMap ([["b"], ["a"]] ++ [["a", "c"]] ++ [["b"], ["d"]])) "a" =
      some ((-(([["b"], ["a"]] : List (List String)).length : ℚ) + 900) / 100) :=
  ⟨by decide, by decide,
    loadWordfreq_last_assignment_wins [["b"], ["a"]] ["a", "c"] [["b"], ["d"]] "a"
      (by decide) (by decide)⟩

/-- Counterexample for C4 as stated: with the word "a" in buckets 0 and
1, the map stores bucket 1's zipf 8.99, not bucket 0's zipf 9 that
first-assignment-wins would give. -/
theorem loadWordfreq_first_wins_counterexample :
    mapGet (buildWordfreqMap [["a"], ["a"]]) "a" = some (899 / 100) ∧
    ((899 : ℚ) / 100 ≠ (-(0 : ℚ) + 900) / 100) := by
  constructor
  · norm_num [buildWordfreqMap, buildWordfreqAux, mapSet, mapGet]
  · norm_num

/-! Claim C5: do the stored baseline probabilities sum to 1? -/

theorem mem_mapKeys_mapSet {α : Type} (m : List (String × α)) (k : String) (v : α)
    (w : String) (hw : w ∈ mapKeys (mapSet m k v)) : w = k ∨ w ∈ mapKeys m := by
  induction m with
  | nil =>
    simp [mapSet, mapKeys] at hw
    exact Or.inl hw
  | cons e m ih =>
    obtain ⟨a, b⟩ := e
    simp only [mapSet] at hw
    split at hw
    · rename_i hak
      simp only [mapKeys, List.map_cons, List.mem_cons] at hw ⊢
      rcases hw with h | h
      · exact Or.inl (hak ▸ h)
      · exact Or.inr (Or.inr h)
    · simp only [mapKeys, List.map_cons, List.mem_cons] at hw ⊢
      rcases hw with h | h
      · exact Or.inr (Or.inl h)
      · rcases ih h with h2 | h2
        · exact Or.inl h2
        · exact Or.inr (Or.inr h2)

theorem sumValues_mapSet_fresh (m : List (String × ℚ)) (k : String) (v : ℚ)
    (hk : k ∉ mapKeys m) : sumValues (mapSet m k v) = sumValues m + v := by
  induction m with
  | nil => simp [mapSet, sumValues]
  | cons e m ih =>
    obtain ⟨a, b⟩ := e
    simp only [mapKeys, List.map_cons, List.mem_cons, not_or] at hk
    have hak : ¬ a = k := fun h => hk.1 h.symm
    simp only [mapSet, if_neg hak]
    have := ih (by simpa [mapKeys] using hk.2)
    simp only [sumValues, List.map_cons, List.sum_cons] at this ⊢
    rw [this]
    ring

theorem normHuman_fold_sum (total : ℚ) :
    ∀ (list : List (String × ℚ)) (m : List (String × ℚ)),
    (∀ e ∈ list, (humanKey e).isSome) →
    (list.map humanKey).Pairwise (· ≠ ·) →
    (∀ e ∈ list, ∀ k, humanKey e = some k → k ∉ mapKeys m) →
    sumValues (list.foldl
      (fun m it =>
        match humanKey it with
        | none => m
        | some k => mapSet m k (it.2 / total)) m) =
      sumValues m + (list.map (fun e => e.2 / total)).sum := by
  intro list
  induction list with
  | nil => intro m _ _ _; simp
  | cons e list ih =>
    intro m h1 h2 h3
    obtain ⟨k, hk⟩ := Option.isSome_iff_exists.mp (h1 e (List.mem_cons_self _ _))
    simp only [List.foldl_cons, hk]
    have hfresh : k ∉ mapKeys m := h3 e (List.mem_cons_self _ _) k hk
    rw [ih (mapSet m k (e.2 / total))
      (fun x hx => h1 x (List.mem_cons_of_mem _ hx))
      (List.Pairwise.of_cons (by simpa using h2))
      ?_]
    · rw [sumValues_mapSet_fresh m k (e.2 / total) hfresh]
      simp only [List.map_cons, List.sum_cons]
      ring
    · intro x hx kx hkx hmem
      rcases mem_mapKeys_mapSet m k (e.2 / total) kx hmem with h | h
      · subst h
        have hne := List.rel_of_pairwise_cons (by simpa using h2 : (List.map humanKey (e :: list)).Pairwise (· ≠ ·))
          (List.mem_map_of_mem humanKey hx)
        rw [hk, hkx] at hne
        exact hne rfl
      · exact h3 x (List.mem_cons_of_mem _ hx) kx hkx h

theorem sum_map_div (l : List (String × ℚ)) (c : ℚ) :
    (l.map (fun e => e.2 / c)).sum = (l.map Prod.snd).sum / c := by
  induction l with
  | nil => simp
  | cons e l ih => simp [ih, add_div]

/-- Claim C5 (amended): `loadHumanProfile` normalizes each kept entry by
the total frequency of the WHOLE loaded list (discarded entries
included), so the stored values sum to 1 exactly when no entry is
discarded — every ngram tokenizes to at least 2 alphabetic tokens —
and the entries' normalized keys are pairwise distinct (and the total
is positive). -/
theorem loadHumanProfile_sum_one (list : List (String × ℚ))
    (h1 : ∀ e ∈ list, (humanKey e).isSome)
    (h2 : (list.map humanKey).Pairwise (· ≠ ·))
    (h3 : 0 < totalFrequency list) :
    sumValues (normHumanList list) = 1 := by
  unfold normHumanList
  rw [if_neg (not_le.mpr h3)]
  rw [normHuman_fold_sum (totalFrequency list) list [] h1 h2
    (by intro e he k hk; simp [mapKeys])]
  rw [sum_map_div]
  simp only [sumValues, List.map_nil, List.sum_nil, zero_add]
  exact div_self (ne_of_gt h3)

/-- Witness for C5 (amended) on a concrete two-entry list. -/
theorem loadHumanProfile_sum_one_witness :
    (∀ e ∈ [("big cat", (2 : ℚ)), ("red dog", 3)], (humanKey e).isSome) ∧
    (([("big cat", (2 : ℚ)), ("red dog", 3)].map humanKey).Pairwise (· ≠ ·)) ∧
    (0 < totalFrequency [("big cat", (2 : ℚ)), ("red dog", 3)]) ∧
    sumValues (normHumanList [("big cat", (2 : ℚ)), ("red dog", 3)]) = 1 := by
  have h3 : 0 < totalFrequency [("big cat", (2 : ℚ)), ("red dog", 3)] := by
    norm_num [totalFrequency]
  exact ⟨by decide, by decide, h3,
    loadHumanProfile_sum_one _ (by decide) (by decide) h3⟩

/-- Counterexample for C5 as stated: the entry "a" (a single token) is
discarded, yet its frequency still enters the normalizing total, so the
stored probabilities sum to 1/2, not 1. -/
theorem loadHumanProfile_sum_one_counterexample :
    normHumanList [("a", 1), ("big cat", 1)] = [("big cat", 1 / 2)] ∧
    sumValues (normHumanList [("a", 1), ("big cat", 1)]) = 1 / 2 ∧
    (1 : ℚ) / 2 ≠ 1 := by
  have hk1 : humanKey ("a", (1 : ℚ)) = none := by decide
  have hk2 : humanKey ("big cat", (1 : ℚ)) = some "big cat" := by decide
  have htot : totalFrequency [("a", (1 : ℚ)), ("big cat", 1)] = 2 := by
    norm_num [totalFrequency]
  have h : normHumanList [("a", 1), ("big cat", 1)] = [("big cat", 1 / 2)] := by
    unfold normHumanList
    rw [if_neg (by rw [htot]; norm_num)]
    simp only [List.foldl_cons, List.foldl_nil, hk1, hk2]
    rw [htot]
    norm_num [mapSet]
  refine ⟨h, ?_, by norm_num⟩
  rw [h]
  norm_num [sumValues]

/-! Claim C6: the behaviour of `zipfFrequency`. -/

theorem zipfFoldSome (f : String → ℚ) :
    ∀ (l : List String) (z : ℚ),
    l.foldl
      (fun acc t =>
        some (match acc with
              | none => f t
              | some z => min z (f t)))
      (some z) = some ((l.map f).foldl min z) := by
  intro l
  induction l with
  | nil => intro z; rfl
  | cons u l ih =>
    intro z
    simp only [List.foldl_cons, List.map_cons]
    exact ih (min z (f u))

theorem combineZipf_eq_fold (f : String → ℚ) (t : String) (ts : List String) :
    combineZipfSimple (t :: ts) f = (ts.map f).foldl min (f t) := by
  unfold combineZipfSimple
  simp only [List.foldl_cons]
  rw [zipfFoldSome]

theorem foldl_min_le_init (l : List ℚ) : ∀ z, l.foldl min z ≤ z := by
  induction l with
  | nil => intro z; exact le_rfl
  | cons u l ih =>
    intro z
    simp only [List.foldl_cons]
    exact le_trans (ih (min z u)) (min_le_left _ _)

theorem foldl_min_le_mem (l : List ℚ) : ∀ z x, x ∈ l → l.foldl min z ≤ x := by
  induction l with
  | nil => intro z x hx; cases hx
  | cons u l ih =>
    intro z x hx
    simp only [List.foldl_cons]
    rcases List.mem_cons.mp hx with rfl | hx
    · exact le_trans (foldl_min_le_init l _) (min_le_right _ _)
    · exact ih (min z u) x hx

theorem foldl_min_mem (l : List ℚ) : ∀ z, l.foldl min z = z ∨ l.foldl min z ∈ l := by
  induction l with
  | nil => intro z; exact Or.inl rfl
  | cons u l ih =>
    intro z
    simp only [List.foldl_cons]
    rcases ih (min z u) with h | h
    · rcases min_choice z u with h2 | h2
      · exact Or.inl (h.trans h2)
      · refine Or.inr ?_
        rw [h, h2]
        exact List.mem_cons_self _ _
    · exact Or.inr (List.mem_cons_of_mem _ h)

/-- Claim C6 (amended): `zipfFrequency` is a total function (the
embedding itself witnesses that no exception is possible); a `null` or
empty input returns the literal 0.0 — NOT the configured default —
and when the normalized input tokenizes to more than one word the
result is the minimum zipf across the tokens, each unknown token
scoring the configured default. -/
theorem zipfFrequency_spec (m : List (String × ℚ)) (d : ℚ) :
    zipfFrequency ⟨m, d⟩ none = 0 ∧
    zipfFrequency ⟨m, d⟩ (some "") = 0 ∧
    (∀ u : String, mapGet m u = none → (mapGet m u).getD d = d) ∧
    (∀ (s t : String) (ts : List String),
      wfTokens (normalizeWord s.data) = t :: ts → ts ≠ [] →
      zipfFrequency ⟨m, d⟩ (some s) =
        (ts.map fun w => (mapGet m w).getD d).foldl min ((mapGet m t).getD d) ∧
      (∀ u ∈ t :: ts, zipfFrequency ⟨m, d⟩ (some s) ≤ (mapGet m u).getD d) ∧
      zipfFrequency ⟨m, d⟩ (some s) ∈ (t :: ts).map fun w => (mapGet m w).getD d) := by
  refine ⟨rfl, rfl, fun u h => by rw [h]; rfl, ?_⟩
  intro s t ts h hts
  have hs : ¬ s = "" := by
    intro he
    subst he
    simp only [show normalizeWord "".data = [] from rfl] at h
    simp [wfTokens, wfTokensAux] at h
  have heq : zipfFrequency ⟨m, d⟩ (some s) =
      (ts.map fun w => (mapGet m w).getD d).foldl min ((mapGet m t).getD d) := by
    show (if s = "" then 0
      else
        let text := normalizeWord s.data
        let tokens := wfTokens text
        if tokens.length > 1 then
          combineZipfSimple tokens (fun w => (mapGet m w).getD d)
        else (mapGet m (String.mk text)).getD d) = _
    rw [if_neg hs]
    dsimp only
    rw [h]
    have hlen : (t :: ts).length > 1 := by
      cases ts with
      | nil => exact absurd rfl hts
      | cons a l => simp
    rw [if_pos hlen]
    exact combineZipf_eq_fold _ t ts
  refine ⟨heq, ?_, ?_⟩
  · intro u hu
    rw [heq]
    rcases List.mem_cons.mp hu with rfl | hu
    · exact foldl_min_le_init _ _
    · exact foldl_min_le_mem _ _ _ (List.mem_map_of_mem _ hu)
  · rw [heq]
    rcases foldl_min_mem (ts.map fun w => (mapGet m w).getD d) ((mapGet m t).getD d) with h2 | h2
    · rw [h2]
      simp only [List.map_cons]
      exact List.mem_cons_self _ _
    · simp only [List.map_cons]
      exact List.mem_cons_of_mem _ h2

/-- Witness for C6 (amended): a two-token phrase over the map
`[("cat", 5)]` with default 2 (the unknown token "dog" scores 2). -/
theorem zipfFrequency_spec_witness :
    (wfTokens (normalizeWord "Cat dog".data) = "cat" :: ["dog"]) ∧
    (["dog"] ≠ ([] : List String)) ∧
    (zipfFrequency ⟨[("cat", 5)], 2⟩ (some "Cat dog") =
        (["dog"].map fun w => (mapGet [("cat", (5 : ℚ))] w).getD 2).foldl min
          ((mapGet [("cat", (5 : ℚ))] "cat").getD 2) ∧
      (∀ u ∈ "cat" :: ["dog"],
        zipfFrequency ⟨[("cat", 5)], 2⟩ (some "Cat dog") ≤
          (mapGet [("cat", (5 : ℚ))] u).getD 2) ∧
      zipfFrequency ⟨[("cat", 5)], 2⟩ (some "Cat dog") ∈
        ("cat" :: ["dog"]).map fun w => (mapGet [("cat", (5 : ℚ))] w).getD 2) :=
  ⟨by decide, by decide,
    (zipfFrequency_spec [("cat", 5)] 2).2.2.2 "Cat dog" "cat" ["dog"] (by decide) (by decide)⟩

/-- Counterexample for C6 as stated: with a configured default of 5,
the empty-string input returns the hardcoded 0.0, not the configured
default. -/
theorem zipfFrequency_empty_counterexample :
    zipfFrequency ⟨[], 5⟩ (some "") = 0 ∧ (0 : ℚ) ≠ 5 :=
  ⟨rfl, by decide⟩

/-- Witness for C2 at a concrete text and stage-1 match list. -/
theorem extractContrastMatches_disjoint_sorted_witness :
    ((mergedIntervalsOf "a. b.".data [⟨0, 2, "p"⟩] []).Pairwise fun a b => a.hi < b.lo) ∧
    (((mergedIntervalsOf "a. b.".data [⟨0, 2, "p"⟩] []).map fun it =>
        ((sentenceSpans (normalizeText "a. b.".data)).getD it.lo (0, 0)).1).Pairwise (· < ·)) ∧
    extractContrastMatches "a. b.".data [⟨0, 2, "p"⟩] [] =
      (mergedIntervalsOf "a. b.".data [⟨0, 2, "p"⟩] []).map
        (buildContrastMatch (normalizeText "a. b.".data)
          (sentenceSpans (normalizeText "a. b.".data))) :=
  extractContrastMatches_disjoint_sorted "a. b.".data [⟨0, 2, "p"⟩] []

/-! Claim C7: `computeSlopIndex` on an empty token list. -/

/-- Claim C7 (amended): `computeSlopIndex` applied to an empty token
list, for any lexicon sets and any value of `trackHits`, returns
wordScore 0 and trigramScore 0 with both hit collections null
(`none` — the JS code returns `null`, not empty arrays, even when
`trackHits` is set), and does not raise an error (the embedding is a
total function). -/
theorem computeSlopIndex_empty (slopWords slopTrigrams : List String)
    (trackHits : Bool) :
    computeSlopIndex slopWords slopTrigrams [] trackHits = ⟨0, 0, none, none⟩ :=
  rfl

/-- Witness for C7 (amended) at concrete lexicon sets. -/
theorem computeSlopIndex_empty_witness :
    computeSlopIndex ["x"] ["y z w"] [] true = ⟨0, 0, none, none⟩ :=
  computeSlopIndex_empty ["x"] ["y z w"] true

/-- Counterexample for C7 as stated: with `trackHits = true` the hit
collections of the empty-token result are null (`none`), not the empty
collections (`some []`) the claim asserts. -/
theorem computeSlopIndex_empty_counterexample :
    (computeSlopIndex [] [] [] true).wordHits = none ∧
    (computeSlopIndex [] [] [] true).trigramHits = none ∧
    (computeSlopIndex [] [] [] true).wordHits ≠ some [] :=
  ⟨rfl, rfl, by decide⟩

/-! Claim C8: `analyzeText` on the empty string. -/

/-- Claim C8: `analyzeText` on the empty string is not an error and
produces the all-zero result — every count, metric and the slop score
are 0 (including `unique_words`) and no optional field is set — rather
than the nonzero value `computeSlopScore` would give for zero raw
component scores. -/
theorem analyzeText_empty (ctx : MetricsCtx)
    (contrastFn : List Char → List ContrastMatch) (opts : AnalyzeOptions) :
    analyzeText ctx contrastFn [] opts =
      { file := opts.file, total_chars := 0, total_words := 0, slop_score := 0,
        metrics :=
          { slop_words_per_1k := 0, slop_trigrams_per_1k := 0,
            ngram_repetition_score := 0, not_x_but_y_per_1k_chars := 0,
            lexical_diversity := ⟨0, 0, 0, 0⟩, vocab_level := 0,
            avg_sentence_length := 0, avg_paragraph_length := 0,
            dialogue_frequency := 0 },
        slop_word_hits := none, slop_trigram_hits := none,
        top_over_represented := none, contrast_matches := none } ∧
    computeSlopScore 0 0 0 ≠ 0 := by
  refine ⟨rfl, ?_⟩
  have ht0 : 0 < normalizeValue 0 slop_trigrams_range := by
    unfold normalizeValue
    have hx : 0 < (0 - slop_trigrams_range.min) /
        (slop_trigrams_range.max - slop_trigrams_range.min) := by
      norm_num [slop_trigrams_range]
    exact lt_max_of_lt_right (lt_min one_pos hx)
  have hc0 : 0 < normalizeValue 0 contrast_range := by
    unfold normalizeValue
    have hx : 0 < (0 - contrast_range.min) /
        (contrast_range.max - contrast_range.min) := by
      norm_num [contrast_range]
    exact lt_max_of_lt_right (lt_min one_pos hx)
  have hw0 := normalizeValue_nonneg 0 slop_words_range
  have hpos : 0 < computeSlopScore 0 0 0 := by
    unfold computeSlopScore
    dsimp only
    nlinarith
  exact ne_of_gt hpos

/-- Witness for C8 at a concrete context and options. -/
theorem analyzeText_empty_witness :
    analyzeText ⟨[], [], [], [], fun _ => none⟩ (fun _ => []) []
        ⟨"f", false, false, false, false⟩ =
      { file := (⟨"f", false, false, false, false⟩ : AnalyzeOptions).file,
        total_chars := 0, total_words := 0, slop_score := 0,
        metrics :=
          { slop_words_per_1k := 0, slop_trigrams_per_1k := 0,
            ngram_repetition_score := 0, not_x_but_y_per_1k_chars := 0,
            lexical_diversity := ⟨0, 0, 0, 0⟩, vocab_level := 0,
            avg_sentence_length := 0, avg_paragraph_length := 0,
            dialogue_frequency := 0 },
        slop_word_hits := none, slop_trigram_hits := none,
        top_over_represented := none, contrast_matches := none } ∧
    computeSlopScore 0 0 0 ≠ 0 :=
  analyzeText_empty ⟨[], [], [], [], fun _ => none⟩ (fun _ => [])
    ⟨"f", false, false, false, false⟩

/-! Claim C9: truncation of the returned contrast matches. -/

/-- Claim C9: whenever contrast matches are requested and present on
the result, `analyzeText` has truncated the detector's full match list
to its first 100 elements, so the field holds at most 100 entries. -/
theorem analyzeText_contrast_truncated (ctx : MetricsCtx)
    (contrastFn : List Char → List ContrastMatch) (text : List Char)
    (opts : AnalyzeOptions) (l : List ContrastMatch)
    (hopt : opts.includeContrastMatches = true)
    (hsome : (analyzeText ctx contrastFn text opts).contrast_matches = some l) :
    l = (contrastFn text).take 100 ∧ l.length ≤ 100 := by
  unfold analyzeText at hsome
  dsimp only at hsome
  by_cases h : (alphaTokens (wordsOnlyLower text)).length = 0
  · rw [if_pos h] at hsome
    exact absurd hsome (by simp)
  · rw [if_neg h] at hsome
    dsimp only at hsome
    rw [if_pos hopt] at hsome
    have hl : (contrastFn text).take 100 = l := Option.some.inj hsome
    refine ⟨hl.symm, ?_⟩
    rw [← hl]
    exact List.length_take_le 100 _

/-- Witness for C9 on the one-word text "a" with a detector returning
no matches. -/
theorem analyzeText_contrast_truncated_witness :
    ((⟨"f", false, false, false, true⟩ : AnalyzeOptions).includeContrastMatches = true) ∧
    ((analyzeText ⟨[], [], [], [], fun _ => none⟩ (fun _ => []) "a".data
        ⟨"f", false, false, false, true⟩).contrast_matches = some []) ∧
    (([] : List ContrastMatch) =
        ((fun _ => ([] : List ContrastMatch)) "a".data).take 100 ∧
      ([] : List ContrastMatch).length ≤ 100) :=
  ⟨rfl, rfl,
    analyzeText_contrast_truncated ⟨[], [], [], [], fun _ => none⟩ (fun _ => [])
      "a".data ⟨"f", false, false, false, true⟩ [] rfl rfl⟩

/-! Claim C10: the Flesch–Kincaid grade metric is clamped at 0. -/

/-- Claim C10: `computeVocabLevel` always returns a value ≥ 0 (a
negative grade-level estimate is clamped to 0), and a text with no
sentences or no words yields 0. -/
theorem computeVocabLevel_nonneg (text : List Char) :
    0 ≤ computeVocabLevel text ∧
    ((fkSentences text = [] ∨ fkWords text = []) → computeVocabLevel text = 0) := by
  constructor
  · unfold computeVocabLevel
    dsimp only
    split
    · exact le_refl 0
    · exact le_max_left 0 _
  · intro h
    rcases h with h | h <;> simp [computeVocabLevel, h]

/-- Witness for C10 at the concrete text "." (which has no non-blank
sentence segment). -/
theorem computeVocabLevel_nonneg_witness :
    (fkSentences ".".data = [] ∨ fkWords ".".data = []) ∧
    computeVocabLevel ".".data = 0 :=
  ⟨Or.inl (by decide), (computeVocabLevel_nonneg ".".data).2 (Or.inl (by decide))⟩

end SlopScore
